import Mathlib

/-!
Verification of the auth-modifier Caddy plugin (rotation state engine).

The development shallowly embeds the plugin's handler and persistence code:

* ServeHTTP / updateIndex - round-robin selection of a credential out of a
  comma-separated header list, keyed by the request's URL path, with
  read-then-increment position bookkeeping;
* saveIndexes / loadIndexes - dirty-flag guarded persistence of the index
  table to a JSON file, and best-effort loading at startup;
* the JSON serialization of the index table (the behaviour of Go's
  encoding/json on a map from string to int), to prove round-trip fidelity.

Positions are modelled as Int with Go's truncated remainder. Positions the
handler itself writes stay below the candidate count, far from the int64
range, and there the unbounded model agrees with Go; but a snapshot loaded
from disk can install any int64, and at 2^63 - 1 Go's increment in
updateIndex wraps to -2^63 while unbounded arithmetic does not. The
wrap-faithful variants (wrap64, updateIndexGo, serveHTTPGo) model that
int64 arithmetic exactly and carry the overflow results.
-/

namespace AuthModifier

/-- Model of the per-character behaviour of Go strings.ToLower on the ASCII
range. Outside ASCII Go lowercases by Unicode tables; no non-ASCII character
lowercases to an ASCII character of "bearer ", so identity on non-ASCII
characters is faithful for every comparison made in this module. -/
def goToLowerChar (c : Char) : Char :=
  if 'A' ≤ c ∧ c ≤ 'Z' then Char.ofNat (c.toNat + 32) else c

/-- Model of Go strings.ToLower (per-character, see goToLowerChar). -/
def goToLower (s : String) : String :=
  String.mk (s.data.map goToLowerChar)

/-- Characters for which Go unicode.IsSpace returns true: the set trimmed by
strings.TrimSpace (Latin-1 white space plus the Unicode White_Space class). -/
def goIsSpace (c : Char) : Bool :=
  let n := c.toNat
  n == 0x20 || (decide (0x9 ≤ n) && decide (n ≤ 0xD)) || n == 0x85 ||
  n == 0xA0 || n == 0x1680 ||
  (decide (0x2000 ≤ n) && decide (n ≤ 0x200A)) || n == 0x2028 ||
  n == 0x2029 || n == 0x202F || n == 0x205F || n == 0x3000

/-- Model of Go strings.TrimSpace: white space removed from both ends. -/
def goTrimSpace (s : String) : String :=
  String.mk (((s.data.dropWhile goIsSpace).reverse.dropWhile goIsSpace).reverse)

/-- Model of Go strings.Split(s, ",") at the character level: split at every
comma; the result always has one element more than the number of commas, so
it is never empty (strings.Split with a non-empty separator never returns an
empty slice; Split("", ",") is [""]). -/
def splitComma : List Char → List (List Char)
  | [] => [[]]
  | c :: cs =>
    if c = ',' then [] :: splitComma cs
    else
      match splitComma cs with
      | t :: ts => (c :: t) :: ts
      | [] => [[c]]

/-- Model of Go's % on int: truncated remainder, taking the dividend's sign,
which is exactly Int.tmod. -/
def goMod (x y : Int) : Int := Int.tmod x y

/-- Selection index computed in ServeHTTP: index % len(tokens). -/
def selIndex (index : Int) (n : Nat) : Int := goMod index (n : Int)

/-- Model of the Go indexing expression tokens[index % len(tokens)]: returns
none where Go panics (a negative index out of range, or % by a zero
length). -/
def goSelect (tokens : List String) (index : Int) : Option String :=
  let i := selIndex index tokens.length
  if h : 0 ≤ i ∧ i.toNat < tokens.length then
    some (tokens.get ⟨i.toNat, h.2⟩)
  else none

/-- In-memory state of the AuthModifier handler touched by ServeHTTP: the
Indexes map (a total function; absent keys read as 0, exactly as a Go
map of int does) and the Changed dirty flag. -/
structure St where
  indexes : String → Int
  changed : Bool

/-- The parts of an http.Request the handler reads and writes: the URL path
(the logical key in this variant of the module) and the two header values;
Go's Header.Get returns the empty string for an absent header, so an empty
string models absence. -/
structure Request where
  path : String
  auth : String
  apiKey : String
deriving DecidableEq

/-- Embedding of updateIndex: Indexes[url] = (Indexes[url] + 1) % length,
and the Changed flag is set. The increment is taken over unbounded Int:
this agrees with Go's int64 exactly when the stored position is below
2^63 - 1, which holds for every position the handler itself writes (they
stay below the candidate count); at the stored position 2^63 - 1 — only
reachable through a loaded snapshot — Go's increment wraps to -2^63 and
the two diverge. updateIndexGo below is the wrap-faithful model. -/
def updateIndex (s : St) (url : String) (length : Nat) : St :=
  { indexes := fun k =>
      if k = url then goMod (s.indexes url + 1) (length : Int) else s.indexes k,
    changed := true }

/-- Wraparound of Go's 64-bit int: reduce into the two's-complement range
from -2^63 inclusive to 2^63 exclusive. -/
def wrap64 (x : Int) : Int := (x + 2 ^ 63) % 2 ^ 64 - 2 ^ 63

/-- Embedding of updateIndex over Go's actual int64 arithmetic: the
increment Indexes[url] + 1 wraps at 2^63 - 1 (two's complement), after
which Go's % keeps the dividend's sign, so the written position can be
negative. Agrees with updateIndex whenever the stored position is below
2^63 - 1. -/
def updateIndexGo (s : St) (url : String) (length : Nat) : St :=
  { indexes := fun k =>
      if k = url then goMod (wrap64 (s.indexes url + 1)) (length : Int)
      else s.indexes k,
    changed := true }

/-- Embedding of the bearer guard
len(authHeader) >= 7 && strings.HasPrefix(strings.ToLower(authHeader[:7]), "bearer "):
HasPrefix of a 7-character string with a 7-character argument is equality.
Character counts model Go's byte counts: the two differ only on strings with
a multi-byte character among the first bytes, and those compare unequal to
the all-ASCII "bearer " under both models. -/
def bearerMatch (authHeader : String) : Bool :=
  decide (7 ≤ authHeader.length) &&
    (goToLower (String.mk (authHeader.data.take 7)) == "bearer ")

/-- Candidate list in the bearer branch of ServeHTTP:
strings.Split(strings.TrimSpace(authHeader[7:]), ","). -/
def bearerCandidates (authHeader : String) : List String :=
  (splitComma (goTrimSpace (String.mk (authHeader.data.drop 7))).data).map
    String.mk

/-- Candidate list in the raw-authorization branch and in the API-key branch
of ServeHTTP: strings.Split(header, ","). -/
def rawCandidates (header : String) : List String :=
  (splitComma header.data).map String.mk

/-- Embedding of the Authorization part of ServeHTTP. The index argument is
the value read from the Indexes map at the top of ServeHTTP. The result is
the mutated request, mutated state and the (url, length) arguments of the
updateIndex calls made; none models a Go panic. -/
def authStep (index : Int) (r : Request) (s : St) :
    Option (Request × St × List (String × Nat)) :=
  if bearerMatch r.auth then
    let tokens := bearerCandidates r.auth
    if 0 < tokens.length then
      match goSelect tokens index with
      | none => none
      | some selectedToken =>
          some ({ r with auth := "Bearer " ++ selectedToken },
                updateIndex s r.path tokens.length,
                [(r.path, tokens.length)])
    else some (r, s, [])
  else if 0 < r.auth.length then
    let tokens := rawCandidates r.auth
    if 0 < tokens.length then
      match goSelect tokens index with
      | none => none
      | some selectedToken =>
          some ({ r with auth := selectedToken },
                updateIndex s r.path tokens.length,
                [(r.path, tokens.length)])
    else some (r, s, [])
  else some (r, s, [])

/-- Embedding of the X-Goog-Api-Key part of ServeHTTP. The index argument is
the value read at the top of ServeHTTP, before either updateIndex call (the
Go code captures the variable once and never re-reads the map). -/
def apiStep (index : Int) (r : Request) (s : St) :
    Option (Request × St × List (String × Nat)) :=
  if 0 < r.apiKey.length then
    let apiKeys := rawCandidates r.apiKey
    if 0 < apiKeys.length then
      match goSelect apiKeys index with
      | none => none
      | some selectedApiKey =>
          some ({ r with apiKey := selectedApiKey },
                updateIndex s r.path apiKeys.length,
                [(r.path, apiKeys.length)])
    else some (r, s, [])
  else some (r, s, [])

/-- Embedding of ServeHTTP: reads index once, runs the Authorization branch
then the API-key branch (the Go code reads both headers before the first
branch, and the first branch never writes the API-key header, so chaining
the two steps is faithful). none models a Go panic. -/
def serveHTTP (s : St) (r : Request) :
    Option (Request × St × List (String × Nat)) :=
  match authStep (s.indexes r.path) r s with
  | none => none
  | some (r1, s1, t1) =>
    match apiStep (s.indexes r.path) r1 s1 with
    | none => none
    | some (r2, s2, t2) => some (r2, s2, t1 ++ t2)

/-- Int64-faithful variant of authStep: identical to authStep except that
the updateIndex calls go through the wrapping updateIndexGo. -/
def authStepGo (index : Int) (r : Request) (s : St) :
    Option (Request × St × List (String × Nat)) :=
  if bearerMatch r.auth then
    let tokens := bearerCandidates r.auth
    if 0 < tokens.length then
      match goSelect tokens index with
      | none => none
      | some selectedToken =>
          some ({ r with auth := "Bearer " ++ selectedToken },
                updateIndexGo s r.path tokens.length,
                [(r.path, tokens.length)])
    else some (r, s, [])
  else if 0 < r.auth.length then
    let tokens := rawCandidates r.auth
    if 0 < tokens.length then
      match goSelect tokens index with
      | none => none
      | some selectedToken =>
          some ({ r with auth := selectedToken },
                updateIndexGo s r.path tokens.length,
                [(r.path, tokens.length)])
    else some (r, s, [])
  else some (r, s, [])

/-- Int64-faithful variant of apiStep (wrapping updateIndexGo). -/
def apiStepGo (index : Int) (r : Request) (s : St) :
    Option (Request × St × List (String × Nat)) :=
  if 0 < r.apiKey.length then
    let apiKeys := rawCandidates r.apiKey
    if 0 < apiKeys.length then
      match goSelect apiKeys index with
      | none => none
      | some selectedApiKey =>
          some ({ r with apiKey := selectedApiKey },
                updateIndexGo s r.path apiKeys.length,
                [(r.path, apiKeys.length)])
    else some (r, s, [])
  else some (r, s, [])

/-- Int64-faithful variant of ServeHTTP: the embedding of the handler with
Go's wrapping int64 arithmetic in the position update. Agrees with
serveHTTP on every state whose stored positions are below 2^63 - 1. -/
def serveHTTPGo (s : St) (r : Request) :
    Option (Request × St × List (String × Nat)) :=
  match authStepGo (s.indexes r.path) r s with
  | none => none
  | some (r1, s1, t1) =>
    match apiStepGo (s.indexes r.path) r1 s1 with
    | none => none
    | some (r2, s2, t2) => some (r2, s2, t1 ++ t2)

/-- A fresh state: empty Indexes map (every key reads 0), clean flag. -/
def freshSt : St := { indexes := fun _ => 0, changed := false }

/-- k-fold iteration of updateIndex for one key with a fixed candidate
count: the stored position read before request number i of a run of
same-key same-count requests is (iterAdvance key n s i).indexes key, and the
selection index used by that request is selIndex of that value. -/
def iterAdvance (key : String) (n : Nat) (s : St) : Nat → St
  | 0 => s
  | k + 1 => updateIndex (iterAdvance key n s k) key n

/-! ### Serialization: Go encoding/json on map[string]int

The index table is serialized with json.Marshal and read back with
json.Unmarshal. For a map from string to int, Marshal emits the members in
sorted key order, so the table is modelled as the association list the
encoder iterates. The encoder below follows encoding/json's string encoder
with its default HTML escaping; the decoder models the scanner on the
sublanguage of objects with integer values (the only inputs loadIndexes
feeds it). One modelling liberty: the scanner's combining of UTF-16
surrogate pairs in u-escapes is not modelled (lone surrogates map to
U+FFFD, as in Go); the encoder never emits surrogate escapes. -/

/-- Lower-case hexadecimal digit, as used by encoding/json's u-escapes. -/
def hexDigit (n : Nat) : Char :=
  if n < 10 then Char.ofNat (48 + n) else Char.ofNat (87 + n)

/-- Escaping of one character by encoding/json's string encoder with the
default HTML escaping of json.Marshal: quote and backslash get a backslash;
newline, carriage return and tab use the short forms; other characters below
0x20 and the HTML-sensitive characters become u-escapes, as do the line
separators U+2028 and U+2029; everything else is emitted verbatim. -/
def escChar (c : Char) : List Char :=
  if c = '"' then ['\\', '"']
  else if c = '\\' then ['\\', '\\']
  else if c = '\n' then ['\\', 'n']
  else if c = '\r' then ['\\', 'r']
  else if c = '\t' then ['\\', 't']
  else if c.toNat < 0x20 || c = '<' || c = '>' || c = '&' then
    ['\\', 'u', '0', '0', hexDigit (c.toNat / 16), hexDigit (c.toNat % 16)]
  else if c.toNat = 0x2028 || c.toNat = 0x2029 then
    ['\\', 'u', '2', '0', '2', hexDigit (c.toNat % 16)]
  else [c]

/-- JSON encoding of a string: quote, escaped characters, quote. -/
def encString (s : String) : List Char :=
  '"' :: ((s.data.map escChar).flatten ++ ['"'])

/-- Decimal digits of a natural number, most significant first (the digits
strconv.AppendInt produces). -/
def encNat (n : Nat) : List Char :=
  if h : n < 10 then [Char.ofNat (48 + n)]
  else encNat (n / 10) ++ [Char.ofNat (48 + n % 10)]
decreasing_by exact Nat.div_lt_self (by omega) (by omega)

/-- JSON encoding of an int: optional minus sign and decimal digits. -/
def encInt (i : Int) : List Char :=
  if i < 0 then '-' :: encNat (-i).toNat else encNat i.toNat

/-- Members of the marshalled object, comma separated. -/
def encMembers : List (String × Int) → List Char
  | [] => []
  | [(k, v)] => encString k ++ ':' :: encInt v
  | (k, v) :: rest => encString k ++ ':' :: encInt v ++ ',' :: encMembers rest

/-- Model of json.Marshal of the Indexes map: one object with the members
in iteration (sorted-key) order. -/
def marshalTable (t : List (String × Int)) : List Char :=
  '\x7b' :: (encMembers t ++ ['\x7d'])

/-- White space skipped between JSON tokens. -/
def jsonWs (c : Char) : Bool :=
  c == ' ' || c == '\t' || c == '\n' || c == '\r'

/-- Skip inter-token white space. -/
def skipWs (l : List Char) : List Char := l.dropWhile jsonWs

/-- ASCII decimal digit test. -/
def jsonDigit (c : Char) : Bool := decide ('0' ≤ c) && decide (c ≤ '9')

/-- Value of a hexadecimal digit in a u-escape. -/
def parseHex (c : Char) : Option Nat :=
  if decide ('0' ≤ c) && decide (c ≤ '9') then some (c.toNat - 48)
  else if decide ('a' ≤ c) && decide (c ≤ 'f') then some (c.toNat - 87)
  else if decide ('A' ≤ c) && decide (c ≤ 'F') then some (c.toNat - 55)
  else none

/-- Single-character escapes accepted by the JSON string scanner. -/
def escShort (e : Char) : Option Char :=
  if e = '"' then some '"'
  else if e = '\\' then some '\\'
  else if e = '/' then some '/'
  else if e = 'b' then some (Char.ofNat 8)
  else if e = 'f' then some (Char.ofNat 12)
  else if e = 'n' then some '\n'
  else if e = 'r' then some '\r'
  else if e = 't' then some '\t'
  else none

/-- Consume a run of decimal digits, accumulating their value. -/
def parseDigits (acc : Nat) : List Char → Nat × List Char
  | [] => (acc, [])
  | c :: rest =>
    if jsonDigit c then parseDigits (acc * 10 + (c.toNat - 48)) rest
    else (acc, c :: rest)

/-- Scan a JSON natural-number token: a zero stands alone, otherwise a run
of digits with a non-zero leading digit (the scanner rejects what follows a
lone zero if it is a digit, because the member separator it then expects is
missing). -/
def parseNatTok (l : List Char) : Option (Nat × List Char) :=
  match l with
  | [] => none
  | c :: rest =>
    if c = '0' then some (0, rest)
    else if jsonDigit c then some (parseDigits (c.toNat - 48) rest)
    else none

/-- Scan a JSON integer token: optional minus sign, then digits. -/
def parseIntTok (l : List Char) : Option (Int × List Char) :=
  match l with
  | [] => none
  | c :: rest =>
    if c = '-' then (parseNatTok rest).map (fun p => (-(p.1 : Int), p.2))
    else (parseNatTok (c :: rest)).map (fun p => ((p.1 : Int), p.2))

/-- Scan a JSON string body after the opening quote, decoding escapes, up to
and including the closing quote. Unescaped control characters are rejected,
u-escapes of lone surrogates decode to U+FFFD as in Go. The fuel argument
only bounds recursion depth; every step consumes at least one character, so
fuel exceeding the input length never runs out. -/
def parseStringBody : Nat → List Char → Option (List Char × List Char)
  | 0, _ => none
  | _ + 1, [] => none
  | fuel + 1, c :: rest =>
    if c = '"' then some ([], rest)
    else if c = '\\' then
      match rest with
      | [] => none
      | e :: rest2 =>
        if e = 'u' then
          match rest2 with
          | h1 :: h2 :: h3 :: h4 :: rest3 =>
            match parseHex h1, parseHex h2, parseHex h3, parseHex h4 with
            | some a, some b, some c2, some d =>
              let n := ((a * 16 + b) * 16 + c2) * 16 + d
              let ch := if 0xD800 ≤ n ∧ n ≤ 0xDFFF then Char.ofNat 0xFFFD
                        else Char.ofNat n
              (parseStringBody fuel rest3).map (fun p => (ch :: p.1, p.2))
            | _, _, _, _ => none
          | _ => none
        else
          match escShort e with
          | some ch => (parseStringBody fuel rest2).map (fun p => (ch :: p.1, p.2))
          | none => none
    else if c.toNat < 0x20 then none
    else (parseStringBody fuel rest).map (fun p => (c :: p.1, p.2))

/-- Scan one key/value member: string key, colon, integer value. -/
def parseMember (l : List Char) : Option ((String × Int) × List Char) :=
  match skipWs l with
  | [] => none
  | c :: rest =>
    if c = '"' then
      match parseStringBody (rest.length + 1) rest with
      | none => none
      | some (key, rest2) =>
        match skipWs rest2 with
        | [] => none
        | c2 :: rest3 =>
          if c2 = ':' then
            match parseIntTok (skipWs rest3) with
            | none => none
            | some (v, rest4) => some ((String.mk key, v), rest4)
          else none
    else none

/-- Scan a non-empty comma-separated member list; the returned remainder has
leading white space skipped. The fuel argument only bounds recursion depth
(each member consumes at least one character). -/
def parseMembersAux : Nat → List Char → Option (List (String × Int) × List Char)
  | 0, _ => none
  | fuel + 1, l =>
    match parseMember l with
    | none => none
    | some (kv, rest) =>
      match skipWs rest with
      | [] => some ([kv], [])
      | c :: rest2 =>
        if c = ',' then
          (parseMembersAux fuel rest2).map (fun p => (kv :: p.1, p.2))
        else some ([kv], c :: rest2)

/-- Model of json.Unmarshal into map[string]int, on the sublanguage of
objects with integer values: an object, possibly empty, with nothing but
white space after it. The members are returned in file order (for the
resulting Go map a duplicated key would keep the last value; the canonical
snapshots produced by marshalTable never duplicate a key). -/
def unmarshalTable (l : List Char) : Option (List (String × Int)) :=
  match skipWs l with
  | [] => none
  | c :: rest =>
    if c = '\x7b' then
      match skipWs rest with
      | [] => none
      | c2 :: rest2 =>
        if c2 = '\x7d' then (if skipWs rest2 = [] then some [] else none)
        else
          match parseMembersAux ((c2 :: rest2).length + 1) (c2 :: rest2) with
          | none => none
          | some (kvs, rest3) =>
            match rest3 with
            | [] => none
            | c3 :: rest4 =>
              if c3 = '\x7d' then (if skipWs rest4 = [] then some kvs else none)
              else none
    else none

/-! ### Durability manager state -/

/-- State of the snapshot file: missing, unreadable for another reason, or
present with contents. -/
inductive FileState
  | missing
  | unreadable
  | content (data : List Char)
deriving DecidableEq

/-- State the durability functions touch: the Indexes table (as the
association list json.Marshal iterates), the Changed flag, and the snapshot
file. -/
structure PersistSt where
  table : List (String × Int)
  changed : Bool
  file : FileState
deriving DecidableEq

/-- Embedding of saveIndexes. The writeOk argument tells whether
os.WriteFile succeeds. json.Marshal of a map[string]int cannot fail, so the
marshal-error branch of the code is never taken and marshalling is modelled
total. The Bool result reports whether a file write was attempted: the
clean-flag early return performs no serialization and no write. On a failed
write the code re-sets Changed to true (it had cleared it before writing)
and leaves the file as it was. -/
def saveIndexes (writeOk : Bool) (s : PersistSt) : PersistSt × Bool :=
  if !s.changed then (s, false)
  else
    let data := marshalTable s.table
    if writeOk then
      ({ s with changed := false, file := FileState.content data }, true)
    else
      ({ s with changed := true }, true)

/-- Embedding of loadIndexes: the resulting table and whether an error was
logged. A missing file is silent and yields the empty table; any other read
error, or a parse error, is logged and yields the empty table. Startup is
never aborted: the function is total. -/
def loadIndexes (f : FileState) : List (String × Int) × Bool :=
  match f with
  | FileState.missing => ([], false)
  | FileState.unreadable => ([], true)
  | FileState.content data =>
    match unmarshalTable data with
    | some t => (t, false)
    | none => ([], true)

/-- Does the list start with a decimal digit? (Used to state that a number
token is followed by a non-digit, so the scanner stops at its end.) -/
def startsDigit : List Char → Bool
  | [] => false
  | c :: _ => jsonDigit c

/-! ### Basic lemmas about the handler's building blocks -/

theorem splitComma_ne_nil (l : List Char) : splitComma l ≠ [] := by
  induction l with
  | nil => simp [splitComma]
  | cons c cs ih =>
    simp only [splitComma]
    split
    · simp
    · cases h : splitComma cs with
      | nil => simp
      | cons t ts => simp

theorem bearerCandidates_ne_nil (a : String) : bearerCandidates a ≠ [] := by
  simp [bearerCandidates, splitComma_ne_nil]

theorem rawCandidates_ne_nil (a : String) : rawCandidates a ≠ [] := by
  simp [rawCandidates, splitComma_ne_nil]

theorem goSelect_spec (tokens : List String) (index : Int)
    (h0 : 0 ≤ index) (hne : tokens ≠ []) :
    ∃ sel, goSelect tokens index = some sel ∧ sel ∈ tokens ∧
      0 ≤ selIndex index tokens.length ∧
      selIndex index tokens.length < (tokens.length : Int) := by
  have hlen : 0 < tokens.length := List.length_pos.mpr hne
  have hnn : 0 ≤ selIndex index tokens.length := by
    unfold selIndex goMod
    exact Int.tmod_nonneg _ h0
  have hlt : selIndex index tokens.length < (tokens.length : Int) := by
    unfold selIndex goMod
    exact Int.tmod_lt_of_pos _ (by exact_mod_cast hlen)
  have htn : (selIndex index tokens.length).toNat < tokens.length := by omega
  refine ⟨tokens.get ⟨_, htn⟩, ?_, List.get_mem _ _ _, hnn, hlt⟩
  unfold goSelect
  rw [dif_pos ⟨hnn, htn⟩]

theorem updateIndex_indexes (s : St) (url : String) (n : Nat) (k : String) :
    (updateIndex s url n).indexes k =
      if k = url then goMod (s.indexes url + 1) (n : Int) else s.indexes k :=
  rfl

theorem updateIndex_changed (s : St) (url : String) (n : Nat) :
    (updateIndex s url n).changed = true := rfl

theorem updateIndex_nonneg (s : St) (url : String) (n : Nat)
    (hs : ∀ k, 0 ≤ s.indexes k) (k : String) :
    0 ≤ (updateIndex s url n).indexes k := by
  show 0 ≤ if k = url then goMod (s.indexes url + 1) (n : Int) else s.indexes k
  split
  · exact Int.tmod_nonneg _ (by have := hs url; omega)
  · exact hs k

/-! ### Branch lemmas for authStep and apiStep -/

theorem authStep_bearer (index : Int) (r : Request) (s : St)
    (h0 : 0 ≤ index) (hb : bearerMatch r.auth = true) :
    ∃ sel, goSelect (bearerCandidates r.auth) index = some sel ∧
      sel ∈ bearerCandidates r.auth ∧
      authStep index r s = some ({ r with auth := "Bearer " ++ sel },
        updateIndex s r.path (bearerCandidates r.auth).length,
        [(r.path, (bearerCandidates r.auth).length)]) := by
  obtain ⟨sel, hsel, hmem, -, -⟩ :=
    goSelect_spec (bearerCandidates r.auth) index h0 (bearerCandidates_ne_nil _)
  refine ⟨sel, hsel, hmem, ?_⟩
  unfold authStep
  rw [hb]
  simp only [if_true,
    if_pos (List.length_pos.mpr (bearerCandidates_ne_nil r.auth)), hsel]

theorem authStep_raw (index : Int) (r : Request) (s : St)
    (h0 : 0 ≤ index) (hb : bearerMatch r.auth = false)
    (hne : 0 < r.auth.length) :
    ∃ sel, goSelect (rawCandidates r.auth) index = some sel ∧
      sel ∈ rawCandidates r.auth ∧
      authStep index r s = some ({ r with auth := sel },
        updateIndex s r.path (rawCandidates r.auth).length,
        [(r.path, (rawCandidates r.auth).length)]) := by
  obtain ⟨sel, hsel, hmem, -, -⟩ :=
    goSelect_spec (rawCandidates r.auth) index h0 (rawCandidates_ne_nil _)
  refine ⟨sel, hsel, hmem, ?_⟩
  unfold authStep
  rw [hb]
  simp only [Bool.false_eq_true, if_false, if_pos hne,
    if_pos (List.length_pos.mpr (rawCandidates_ne_nil r.auth)), hsel]

theorem authStep_skip (index : Int) (r : Request) (s : St)
    (hb : bearerMatch r.auth = false) (hne : ¬ 0 < r.auth.length) :
    authStep index r s = some (r, s, []) := by
  unfold authStep
  rw [hb]
  simp only [Bool.false_eq_true, if_false, if_neg hne]

theorem apiStep_present (index : Int) (r : Request) (s : St)
    (h0 : 0 ≤ index) (hne : 0 < r.apiKey.length) :
    ∃ sel, goSelect (rawCandidates r.apiKey) index = some sel ∧
      sel ∈ rawCandidates r.apiKey ∧
      apiStep index r s = some ({ r with apiKey := sel },
        updateIndex s r.path (rawCandidates r.apiKey).length,
        [(r.path, (rawCandidates r.apiKey).length)]) := by
  obtain ⟨sel, hsel, hmem, -, -⟩ :=
    goSelect_spec (rawCandidates r.apiKey) index h0 (rawCandidates_ne_nil _)
  refine ⟨sel, hsel, hmem, ?_⟩
  unfold apiStep
  simp only [if_pos hne,
    if_pos (List.length_pos.mpr (rawCandidates_ne_nil r.apiKey)), hsel]

theorem apiStep_skip (index : Int) (r : Request) (s : St)
    (hne : ¬ 0 < r.apiKey.length) :
    apiStep index r s = some (r, s, []) := by
  unfold apiStep
  rw [if_neg hne]

theorem authStep_cases (index : Int) (r : Request) (s : St)
    (h0 : 0 ≤ index) :
    ∃ r1 s1 t1, authStep index r s = some (r1, s1, t1) ∧
      r1.path = r.path ∧ r1.apiKey = r.apiKey ∧
      ((s1 = s ∧ t1 = []) ∨
        ∃ n, 1 ≤ n ∧ s1 = updateIndex s r.path n ∧ t1 = [(r.path, n)]) := by
  by_cases hb : bearerMatch r.auth = true
  · obtain ⟨sel, -, -, heq⟩ := authStep_bearer index r s h0 hb
    exact ⟨_, _, _, heq, rfl, rfl, Or.inr ⟨_,
      List.length_pos.mpr (bearerCandidates_ne_nil r.auth), rfl, rfl⟩⟩
  · rw [Bool.not_eq_true] at hb
    by_cases hne : 0 < r.auth.length
    · obtain ⟨sel, -, -, heq⟩ := authStep_raw index r s h0 hb hne
      exact ⟨_, _, _, heq, rfl, rfl, Or.inr ⟨_,
        List.length_pos.mpr (rawCandidates_ne_nil r.auth), rfl, rfl⟩⟩
    · exact ⟨r, s, [], authStep_skip index r s hb hne, rfl, rfl,
        Or.inl ⟨rfl, rfl⟩⟩

theorem apiStep_cases (index : Int) (r : Request) (s : St)
    (h0 : 0 ≤ index) :
    ∃ r2 s2 t2, apiStep index r s = some (r2, s2, t2) ∧
      r2.path = r.path ∧ r2.auth = r.auth ∧
      ((s2 = s ∧ t2 = []) ∨
        ∃ n, 1 ≤ n ∧ s2 = updateIndex s r.path n ∧ t2 = [(r.path, n)]) := by
  by_cases hne : 0 < r.apiKey.length
  · obtain ⟨sel, -, -, heq⟩ := apiStep_present index r s h0 hne
    exact ⟨_, _, _, heq, rfl, rfl, Or.inr ⟨_,
      List.length_pos.mpr (rawCandidates_ne_nil r.apiKey), rfl, rfl⟩⟩
  · exact ⟨r, s, [], apiStep_skip index r s hne, rfl, rfl, Or.inl ⟨rfl, rfl⟩⟩

/-! ### Claim theorems about the request path -/

/-- C1: with a fixed candidate count n >= 1 and a key never seen before
(stored position 0), the stored position before request number i of the run
is i mod n — so the sequence of positions used is 0, 1, ..., n-1, 0, 1, ...;
the position used to select (selIndex, i.e. index % len(tokens) in
ServeHTTP) equals the stored position read before advancing; and each
advance updates the stored position to (current + 1) mod n. -/
theorem advance_round_robin (key : String) (n : Nat) (s : St) (i : Nat)
    (hn : 1 ≤ n) (h0 : s.indexes key = 0) :
    (iterAdvance key n s i).indexes key = ((i % n : Nat) : Int) ∧
    selIndex ((iterAdvance key n s i).indexes key) n =
      (iterAdvance key n s i).indexes key ∧
    (iterAdvance key n s (i + 1)).indexes key =
      goMod ((iterAdvance key n s i).indexes key + 1) (n : Int) := by
  have main : ∀ j, (iterAdvance key n s j).indexes key = ((j % n : Nat) : Int) := by
    intro j
    induction j with
    | zero => simpa [iterAdvance] using h0
    | succ k ih =>
      show (updateIndex (iterAdvance key n s k) key n).indexes key = _
      rw [updateIndex_indexes, if_pos rfl, ih]
      unfold goMod
      rw [show ((k % n : Nat) : Int) + 1 = (((k % n) + 1 : Nat) : Int) by push_cast; ring,
        ← Int.ofNat_tmod]
      exact_mod_cast Nat.mod_add_mod k n 1
  refine ⟨main i, ?_, ?_⟩
  · rw [main i]
    have hvlt : i % n < n := Nat.mod_lt _ (by omega)
    unfold selIndex goMod
    rw [Int.tmod_eq_emod (by exact_mod_cast Nat.zero_le _) (by exact_mod_cast Nat.zero_le n)]
    exact Int.emod_eq_of_lt (by exact_mod_cast Nat.zero_le _) (by exact_mod_cast hvlt)
  · show (updateIndex (iterAdvance key n s i) key n).indexes key = _
    rw [updateIndex_indexes, if_pos rfl]

/-- Witness for C1 at key "/p", n = 3, fresh state, i = 4. -/
theorem advance_round_robin_witness :
    (iterAdvance "/p" 3 freshSt 4).indexes "/p" = ((4 % 3 : Nat) : Int) ∧
    selIndex ((iterAdvance "/p" 3 freshSt 4).indexes "/p") 3 =
      (iterAdvance "/p" 3 freshSt 4).indexes "/p" ∧
    (iterAdvance "/p" 3 freshSt (4 + 1)).indexes "/p" =
      goMod ((iterAdvance "/p" 3 freshSt 4).indexes "/p" + 1) (3 : Int) :=
  advance_round_robin "/p" 3 freshSt 4 (by decide) rfl

/-- C8: when the Authorization header is empty and the API-key header is
absent (Header.Get returns ""), ServeHTTP leaves the request, the index
table and the dirty flag unchanged and makes no updateIndex call. -/
theorem serveHTTP_passthrough (s : St) (r : Request)
    (ha : r.auth = "") (hk : r.apiKey = "") :
    serveHTTP s r = some (r, s, []) := by
  have hb : bearerMatch r.auth = false := by rw [ha]; decide
  have hal : ¬ 0 < r.auth.length := by rw [ha]; decide
  have hkl : ¬ 0 < r.apiKey.length := by rw [hk]; decide
  simp only [serveHTTP, authStep_skip _ r s hb hal, apiStep_skip _ r s hkl,
    List.nil_append]

/-- Witness for C8 at a concrete request with both headers empty. -/
theorem serveHTTP_passthrough_witness :
    serveHTTP freshSt ⟨"/p", "", ""⟩ = some (⟨"/p", "", ""⟩, freshSt, []) :=
  serveHTTP_passthrough freshSt ⟨"/p", "", ""⟩ rfl rfl

/-! ### Int64-faithful handler: lemmas for the overflow-aware safety claim -/

theorem wrap64_eq_self (x : Int) (h1 : -(2 ^ 63) ≤ x) (h2 : x < 2 ^ 63) :
    wrap64 x = x := by
  unfold wrap64
  rw [Int.emod_eq_of_lt (by omega) (by omega)]
  omega

theorem dropWhile_length_le (p : Char → Bool) (l : List Char) :
    (l.dropWhile p).length ≤ l.length := by
  induction l with
  | nil => simp
  | cons c cs ih =>
    rw [List.dropWhile_cons]
    split
    · simp only [List.length_cons]
      omega
    · simp

theorem goTrimSpace_length_le (s : String) :
    (goTrimSpace s).data.length ≤ s.data.length := by
  unfold goTrimSpace
  have h1 := dropWhile_length_le goIsSpace s.data
  have h2 := dropWhile_length_le goIsSpace (s.data.dropWhile goIsSpace).reverse
  simp only [List.length_reverse] at *
  omega

theorem splitComma_length_le (l : List Char) :
    (splitComma l).length ≤ l.length + 1 := by
  induction l with
  | nil => simp [splitComma]
  | cons c cs ih =>
    simp only [splitComma]
    split
    · simp only [List.length_cons]
      omega
    · cases h : splitComma cs with
      | nil => exact absurd h (splitComma_ne_nil cs)
      | cons t ts =>
        rw [h] at ih
        simp only [List.length_cons] at *
        omega

theorem bearerCandidates_length_le (a : String) :
    (bearerCandidates a).length ≤ a.data.length + 1 := by
  unfold bearerCandidates
  rw [List.length_map]
  have h1 := splitComma_length_le (goTrimSpace (String.mk (a.data.drop 7))).data
  have h2 := goTrimSpace_length_le (String.mk (a.data.drop 7))
  have h3 : (String.mk (a.data.drop 7)).data.length ≤ a.data.length := by
    simp only [List.length_drop]
    omega
  omega

theorem rawCandidates_length_le (a : String) :
    (rawCandidates a).length ≤ a.data.length + 1 := by
  unfold rawCandidates
  rw [List.length_map]
  exact splitComma_length_le a.data

theorem updateIndexGo_indexes (s : St) (url : String) (n : Nat) (k : String) :
    (updateIndexGo s url n).indexes k =
      if k = url then goMod (wrap64 (s.indexes url + 1)) (n : Int)
      else s.indexes k :=
  rfl

theorem updateIndexGo_writeback (s : St) (url : String) (n : Nat)
    (hn : 1 ≤ n) (h0 : 0 ≤ s.indexes url)
    (h1 : s.indexes url < 2 ^ 63 - 1) :
    0 ≤ (updateIndexGo s url n).indexes url ∧
    (updateIndexGo s url n).indexes url < (n : Int) := by
  have hw : wrap64 (s.indexes url + 1) = s.indexes url + 1 :=
    wrap64_eq_self _ (by omega) (by omega)
  rw [updateIndexGo_indexes, if_pos rfl, hw]
  constructor
  · exact Int.tmod_nonneg _ (by omega)
  · exact Int.tmod_lt_of_pos _ (by exact_mod_cast hn)

theorem updateIndexGo_bounds (s : St) (url : String) (n : Nat)
    (hs : ∀ k, 0 ≤ s.indexes k ∧ s.indexes k < 2 ^ 63 - 1)
    (hn : 1 ≤ n) (hn2 : n ≤ 2 ^ 63 - 1) (k : String) :
    0 ≤ (updateIndexGo s url n).indexes k ∧
    (updateIndexGo s url n).indexes k < 2 ^ 63 - 1 := by
  by_cases hk : k = url
  · obtain ⟨hnn, hlt⟩ :=
      updateIndexGo_writeback s url n hn (hs url).1 (hs url).2
    rw [updateIndexGo_indexes, if_pos hk]
    rw [updateIndexGo_indexes, if_pos rfl] at hnn hlt
    have hcast : (n : Int) ≤ 2 ^ 63 - 1 := by omega
    exact ⟨hnn, by omega⟩
  · rw [updateIndexGo_indexes, if_neg hk]
    exact hs k

theorem authStepGo_bearer (index : Int) (r : Request) (s : St)
    (h0 : 0 ≤ index) (hb : bearerMatch r.auth = true) :
    ∃ sel, goSelect (bearerCandidates r.auth) index = some sel ∧
      sel ∈ bearerCandidates r.auth ∧
      authStepGo index r s = some ({ r with auth := "Bearer " ++ sel },
        updateIndexGo s r.path (bearerCandidates r.auth).length,
        [(r.path, (bearerCandidates r.auth).length)]) := by
  obtain ⟨sel, hsel, hmem, -, -⟩ :=
    goSelect_spec (bearerCandidates r.auth) index h0 (bearerCandidates_ne_nil _)
  refine ⟨sel, hsel, hmem, ?_⟩
  unfold authStepGo
  rw [hb]
  simp only [if_true,
    if_pos (List.length_pos.mpr (bearerCandidates_ne_nil r.auth)), hsel]

theorem authStepGo_raw (index : Int) (r : Request) (s : St)
    (h0 : 0 ≤ index) (hb : bearerMatch r.auth = false)
    (hne : 0 < r.auth.length) :
    ∃ sel, goSelect (rawCandidates r.auth) index = some sel ∧
      sel ∈ rawCandidates r.auth ∧
      authStepGo index r s = some ({ r with auth := sel },
        updateIndexGo s r.path (rawCandidates r.auth).length,
        [(r.path, (rawCandidates r.auth).length)]) := by
  obtain ⟨sel, hsel, hmem, -, -⟩ :=
    goSelect_spec (rawCandidates r.auth) index h0 (rawCandidates_ne_nil _)
  refine ⟨sel, hsel, hmem, ?_⟩
  unfold authStepGo
  rw [hb]
  simp only [Bool.false_eq_true, if_false, if_pos hne,
    if_pos (List.length_pos.mpr (rawCandidates_ne_nil r.auth)), hsel]

theorem authStepGo_skip (index : Int) (r : Request) (s : St)
    (hb : bearerMatch r.auth = false) (hne : ¬ 0 < r.auth.length) :
    authStepGo index r s = some (r, s, []) := by
  unfold authStepGo
  rw [hb]
  simp only [Bool.false_eq_true, if_false, if_neg hne]

theorem apiStepGo_present (index : Int) (r : Request) (s : St)
    (h0 : 0 ≤ index) (hne : 0 < r.apiKey.length) :
    ∃ sel, goSelect (rawCandidates r.apiKey) index = some sel ∧
      sel ∈ rawCandidates r.apiKey ∧
      apiStepGo index r s = some ({ r with apiKey := sel },
        updateIndexGo s r.path (rawCandidates r.apiKey).length,
        [(r.path, (rawCandidates r.apiKey).length)]) := by
  obtain ⟨sel, hsel, hmem, -, -⟩ :=
    goSelect_spec (rawCandidates r.apiKey) index h0 (rawCandidates_ne_nil _)
  refine ⟨sel, hsel, hmem, ?_⟩
  unfold apiStepGo
  simp only [if_pos hne,
    if_pos (List.length_pos.mpr (rawCandidates_ne_nil r.apiKey)), hsel]

theorem apiStepGo_skip (index : Int) (r : Request) (s : St)
    (hne : ¬ 0 < r.apiKey.length) :
    apiStepGo index r s = some (r, s, []) := by
  unfold apiStepGo
  rw [if_neg hne]

theorem authStepGo_cases (index : Int) (r : Request) (s : St)
    (h0 : 0 ≤ index) :
    ∃ r1 s1 t1, authStepGo index r s = some (r1, s1, t1) ∧
      r1.path = r.path ∧ r1.apiKey = r.apiKey ∧
      ((s1 = s ∧ t1 = []) ∨
        ∃ n, 1 ≤ n ∧ n ≤ r.auth.data.length + 1 ∧
          s1 = updateIndexGo s r.path n ∧ t1 = [(r.path, n)]) := by
  by_cases hb : bearerMatch r.auth = true
  · obtain ⟨sel, -, -, heq⟩ := authStepGo_bearer index r s h0 hb
    exact ⟨_, _, _, heq, rfl, rfl, Or.inr ⟨_,
      List.length_pos.mpr (bearerCandidates_ne_nil r.auth),
      bearerCandidates_length_le r.auth, rfl, rfl⟩⟩
  · rw [Bool.not_eq_true] at hb
    by_cases hne : 0 < r.auth.length
    · obtain ⟨sel, -, -, heq⟩ := authStepGo_raw index r s h0 hb hne
      exact ⟨_, _, _, heq, rfl, rfl, Or.inr ⟨_,
        List.length_pos.mpr (rawCandidates_ne_nil r.auth),
        rawCandidates_length_le r.auth, rfl, rfl⟩⟩
    · exact ⟨r, s, [], authStepGo_skip index r s hb hne, rfl, rfl,
        Or.inl ⟨rfl, rfl⟩⟩

theorem apiStepGo_cases (index : Int) (r : Request) (s : St)
    (h0 : 0 ≤ index) :
    ∃ r2 s2 t2, apiStepGo index r s = some (r2, s2, t2) ∧
      r2.path = r.path ∧ r2.auth = r.auth ∧
      ((s2 = s ∧ t2 = []) ∨
        ∃ n, 1 ≤ n ∧ n ≤ r.apiKey.data.length + 1 ∧
          s2 = updateIndexGo s r.path n ∧ t2 = [(r.path, n)]) := by
  by_cases hne : 0 < r.apiKey.length
  · obtain ⟨sel, -, -, heq⟩ := apiStepGo_present index r s h0 hne
    exact ⟨_, _, _, heq, rfl, rfl, Or.inr ⟨_,
      List.length_pos.mpr (rawCandidates_ne_nil r.apiKey),
      rawCandidates_length_le r.apiKey, rfl, rfl⟩⟩
  · exact ⟨r, s, [], apiStepGo_skip index r s hne, rfl, rfl,
      Or.inl ⟨rfl, rfl⟩⟩

/-- Counterexample to C9 as stated: a table whose every stored position is
2^63 - 1 — non-negative, so admitted by the claim's precondition, and
installable only by a loaded snapshot — on a request with three bearer
candidates. Go wraps the increment 2^63 - 1 + 1 to -2^63, whose truncated
remainder by 3 is -2, so the advance writes back a negative position, not
one in [0, 3): the handler does not preserve non-negativity on this
input. -/
theorem serveHTTPGo_overflow_cex :
    (∀ k, 0 ≤ (St.mk (fun _ => 2 ^ 63 - 1) false).indexes k) ∧
    (serveHTTPGo (St.mk (fun _ => 2 ^ 63 - 1) false)
        ⟨"/p", "Bearer a,b,c", ""⟩).map
      (fun out => out.2.1.indexes "/p") = some (-2) ∧
    ((-2 : Int) < 0) :=
  ⟨fun _ => by norm_num, by decide, by norm_num⟩

/-- C9 (amended): under the precondition that every stored position is
non-negative and below 2^63 - 1 (the point at which Go's int64 increment
would overflow; a fresh or handler-written table satisfies this), and that
the header values are short enough for the candidate counts to fit Go's
int (count is one more than the comma count), the int64-faithful handler
never panics: the embedding returns some, the resulting table again has
all positions in [0, 2^63 - 1), every advance call has count at least 1,
every advance with count >= 1 from such a position writes back a value in
[0, count), and the selection index i % n lies in [0, n) whenever i is
non-negative and n >= 1. -/
theorem serveHTTPGo_safe (s : St) (r : Request)
    (hs : ∀ k, 0 ≤ s.indexes k ∧ s.indexes k < 2 ^ 63 - 1)
    (hal : r.auth.data.length + 1 ≤ 2 ^ 63 - 1)
    (hkl : r.apiKey.data.length + 1 ≤ 2 ^ 63 - 1) :
    (∃ r2 s2 tr, serveHTTPGo s r = some (r2, s2, tr) ∧
      (∀ k, 0 ≤ s2.indexes k ∧ s2.indexes k < 2 ^ 63 - 1) ∧
      (∀ c ∈ tr, 1 ≤ c.2)) ∧
    (∀ s' url n, 1 ≤ n → 0 ≤ s'.indexes url →
      s'.indexes url < 2 ^ 63 - 1 →
      0 ≤ (updateIndexGo s' url n).indexes url ∧
      (updateIndexGo s' url n).indexes url < (n : Int)) ∧
    (∀ i n, 0 ≤ i → 1 ≤ n → 0 ≤ selIndex i n ∧ selIndex i n < (n : Int)) := by
  refine ⟨?_, fun s' url n hn h0 h1 => updateIndexGo_writeback s' url n hn h0 h1,
    ?_⟩
  · have h0 : 0 ≤ s.indexes r.path := (hs r.path).1
    obtain ⟨r1, s1, t1, ha, hp1, hk1, hd1⟩ :=
      authStepGo_cases (s.indexes r.path) r s h0
    have hs1 : ∀ k, 0 ≤ s1.indexes k ∧ s1.indexes k < 2 ^ 63 - 1 := by
      rcases hd1 with ⟨hseq, -⟩ | ⟨n, hn, hnb, hseq, -⟩
      · rw [hseq]; exact hs
      · rw [hseq]
        exact updateIndexGo_bounds s r.path n hs hn (by omega)
    obtain ⟨r2, s2, t2, hb, -, -, hd2⟩ :=
      apiStepGo_cases (s.indexes r.path) r1 s1 h0
    have hs2 : ∀ k, 0 ≤ s2.indexes k ∧ s2.indexes k < 2 ^ 63 - 1 := by
      rcases hd2 with ⟨hseq, -⟩ | ⟨n, hn, hnb, hseq, -⟩
      · rw [hseq]; exact hs1
      · rw [hseq]
        have hr1 : r1.apiKey.data.length + 1 ≤ 2 ^ 63 - 1 := by
          rw [hk1]; exact hkl
        exact updateIndexGo_bounds s1 r1.path n hs1 hn (by omega)
    refine ⟨r2, s2, t1 ++ t2, ?_, hs2, ?_⟩
    · simp only [serveHTTPGo, ha, hb]
    · intro c hc
      rcases List.mem_append.mp hc with hc | hc
      · rcases hd1 with ⟨-, ht⟩ | ⟨n, hn, -, -, ht⟩
        · rw [ht] at hc; cases hc
        · rw [ht] at hc
          simp only [List.mem_singleton] at hc
          rw [hc]; exact hn
      · rcases hd2 with ⟨-, ht⟩ | ⟨n, hn, -, -, ht⟩
        · rw [ht] at hc; cases hc
        · rw [ht] at hc
          simp only [List.mem_singleton] at hc
          rw [hc]; exact hn
  · intro i n hi hn
    constructor
    · unfold selIndex goMod
      exact Int.tmod_nonneg _ hi
    · unfold selIndex goMod
      exact Int.tmod_lt_of_pos _ (by exact_mod_cast hn)

/-- Witness for the amended C9 at a concrete request carrying both header
kinds, from the fresh state. -/
theorem serveHTTPGo_safe_witness :
    (∃ r2 s2 tr, serveHTTPGo freshSt ⟨"/p", "Bearer k1,k2", "a1,a2,a3"⟩ =
        some (r2, s2, tr) ∧
      (∀ k, 0 ≤ s2.indexes k ∧ s2.indexes k < 2 ^ 63 - 1) ∧
      (∀ c ∈ tr, 1 ≤ c.2)) ∧
    (∀ s' url n, 1 ≤ n → 0 ≤ s'.indexes url →
      s'.indexes url < 2 ^ 63 - 1 →
      0 ≤ (updateIndexGo s' url n).indexes url ∧
      (updateIndexGo s' url n).indexes url < (n : Int)) ∧
    (∀ i n, 0 ≤ i → 1 ≤ n → 0 ≤ selIndex i n ∧ selIndex i n < (n : Int)) :=
  serveHTTPGo_safe freshSt ⟨"/p", "Bearer k1,k2", "a1,a2,a3"⟩
    (fun _ => ⟨le_refl 0, by show (0 : Int) < 2 ^ 63 - 1; norm_num⟩)
    (by norm_num) (by norm_num)

/-- C5: an Authorization value of length at least 7 whose first 7 characters
case-insensitively equal "bearer " has its selected credential re-injected
with the canonical "Bearer " string prepended; a non-empty value that does
not match is split on "," as an opaque token list and the selected candidate
is re-injected with no added material. -/
theorem auth_reinjection (s : St) (r : Request)
    (hidx : 0 ≤ s.indexes r.path) :
    (bearerMatch r.auth = true →
      ∃ sel out,
        goSelect (bearerCandidates r.auth) (s.indexes r.path) = some sel ∧
        sel ∈ bearerCandidates r.auth ∧
        serveHTTP s r = some out ∧ out.1.auth = "Bearer " ++ sel) ∧
    (bearerMatch r.auth = false → 0 < r.auth.length →
      ∃ sel out,
        goSelect (rawCandidates r.auth) (s.indexes r.path) = some sel ∧
        sel ∈ rawCandidates r.auth ∧
        serveHTTP s r = some out ∧ out.1.auth = sel) := by
  constructor
  · intro hb
    obtain ⟨sel, hsel, hmem, ha⟩ := authStep_bearer (s.indexes r.path) r s hidx hb
    obtain ⟨r2, s2, t2, hapi, -, hauth, -⟩ :=
      apiStep_cases (s.indexes r.path) { r with auth := "Bearer " ++ sel }
        (updateIndex s r.path (bearerCandidates r.auth).length) hidx
    refine ⟨sel, (r2, s2, [(r.path, (bearerCandidates r.auth).length)] ++ t2),
      hsel, hmem, ?_, hauth⟩
    simp only [serveHTTP, ha, hapi]
  · intro hb hne
    obtain ⟨sel, hsel, hmem, ha⟩ := authStep_raw (s.indexes r.path) r s hidx hb hne
    obtain ⟨r2, s2, t2, hapi, -, hauth, -⟩ :=
      apiStep_cases (s.indexes r.path) { r with auth := sel }
        (updateIndex s r.path (rawCandidates r.auth).length) hidx
    refine ⟨sel, (r2, s2, [(r.path, (rawCandidates r.auth).length)] ++ t2),
      hsel, hmem, ?_, hauth⟩
    simp only [serveHTTP, ha, hapi]

/-- Witness for C5 at a bearer-style concrete request. -/
theorem auth_reinjection_witness :
    (bearerMatch (Request.mk "/p" "Bearer k1,k2" "x1").auth = true →
      ∃ sel out,
        goSelect (bearerCandidates (Request.mk "/p" "Bearer k1,k2" "x1").auth)
          (freshSt.indexes (Request.mk "/p" "Bearer k1,k2" "x1").path) = some sel ∧
        sel ∈ bearerCandidates (Request.mk "/p" "Bearer k1,k2" "x1").auth ∧
        serveHTTP freshSt (Request.mk "/p" "Bearer k1,k2" "x1") = some out ∧
        out.1.auth = "Bearer " ++ sel) ∧
    (bearerMatch (Request.mk "/p" "Bearer k1,k2" "x1").auth = false →
      0 < (Request.mk "/p" "Bearer k1,k2" "x1").auth.length →
      ∃ sel out,
        goSelect (rawCandidates (Request.mk "/p" "Bearer k1,k2" "x1").auth)
          (freshSt.indexes (Request.mk "/p" "Bearer k1,k2" "x1").path) = some sel ∧
        sel ∈ rawCandidates (Request.mk "/p" "Bearer k1,k2" "x1").auth ∧
        serveHTTP freshSt (Request.mk "/p" "Bearer k1,k2" "x1") = some out ∧
        out.1.auth = sel) :=
  auth_reinjection freshSt (Request.mk "/p" "Bearer k1,k2" "x1") (by decide)

/-- C6: only the portion after the recognized prefix is trimmed as a whole
before splitting on ","; elements are not trimmed individually, so
"Bearer key1, key2" yields exactly the candidates "key1" and " key2" (the
second retains its leading space), observable through ServeHTTP: at stored
position 0 the header becomes "Bearer key1" and at stored position 1 it
becomes "Bearer  key2" with a double space. -/
theorem trim_whole_not_elements :
    bearerCandidates "Bearer key1, key2" = ["key1", " key2"] ∧
    (serveHTTP freshSt ⟨"/p", "Bearer key1, key2", ""⟩).map
      (fun out => out.1.auth) = some "Bearer key1" ∧
    (serveHTTP
        { indexes := fun k => if k = "/p" then 1 else 0, changed := true }
        ⟨"/p", "Bearer key1, key2", ""⟩).map
      (fun out => out.1.auth) = some "Bearer  key2" :=
  ⟨by decide, by decide, by decide⟩

/-- C7: when one request carries both a bearer Authorization list and an
API-key list, both selections are driven by the same key (the URL path) and
index with the identical position value read once before either advance, and
the shared counter is advanced once per scheme: the final stored position
has gone through both updateIndex calls. -/
theorem coupled_rotation (s : St) (r : Request)
    (hb : bearerMatch r.auth = true) (hk : 0 < r.apiKey.length)
    (hidx : 0 ≤ s.indexes r.path) :
    ∃ selA selK,
      goSelect (bearerCandidates r.auth) (s.indexes r.path) = some selA ∧
      goSelect (rawCandidates r.apiKey) (s.indexes r.path) = some selK ∧
      serveHTTP s r = some
        ({ r with auth := "Bearer " ++ selA, apiKey := selK },
         updateIndex (updateIndex s r.path (bearerCandidates r.auth).length)
           r.path (rawCandidates r.apiKey).length,
         [(r.path, (bearerCandidates r.auth).length),
          (r.path, (rawCandidates r.apiKey).length)]) := by
  obtain ⟨selA, hselA, -, ha⟩ := authStep_bearer (s.indexes r.path) r s hidx hb
  obtain ⟨selK, hselK, -, hapi⟩ :=
    apiStep_present (s.indexes r.path) { r with auth := "Bearer " ++ selA }
      (updateIndex s r.path (bearerCandidates r.auth).length) hidx hk
  refine ⟨selA, selK, hselA, hselK, ?_⟩
  simp only [serveHTTP, ha, hapi]
  rfl

/-- Witness for C7 at a concrete request carrying both schemes. -/
theorem coupled_rotation_witness :
    ∃ selA selK,
      goSelect (bearerCandidates (Request.mk "/p" "Bearer k1,k2" "a1,a2,a3").auth)
        (freshSt.indexes "/p") = some selA ∧
      goSelect (rawCandidates (Request.mk "/p" "Bearer k1,k2" "a1,a2,a3").apiKey)
        (freshSt.indexes "/p") = some selK ∧
      serveHTTP freshSt (Request.mk "/p" "Bearer k1,k2" "a1,a2,a3") = some
        ({ Request.mk "/p" "Bearer k1,k2" "a1,a2,a3" with
            auth := "Bearer " ++ selA, apiKey := selK },
         updateIndex (updateIndex freshSt "/p"
             (bearerCandidates (Request.mk "/p" "Bearer k1,k2" "a1,a2,a3").auth).length)
           "/p"
           (rawCandidates (Request.mk "/p" "Bearer k1,k2" "a1,a2,a3").apiKey).length,
         [("/p", (bearerCandidates (Request.mk "/p" "Bearer k1,k2" "a1,a2,a3").auth).length),
          ("/p", (rawCandidates (Request.mk "/p" "Bearer k1,k2" "a1,a2,a3").apiKey).length)]) :=
  coupled_rotation freshSt (Request.mk "/p" "Bearer k1,k2" "a1,a2,a3")
    (by decide) (by decide) (by decide)

theorem goTrimSpace_all_space (l : List Char) (h : l.all goIsSpace = true) :
    goTrimSpace (String.mk l) = "" := by
  unfold goTrimSpace
  have hd : l.dropWhile goIsSpace = [] :=
    List.dropWhile_eq_nil_iff.mpr (fun x hx => (List.all_eq_true.mp h) x hx)
  rw [show (String.mk l).data = l from rfl, hd]
  rfl

/-- C10: splitting on "," never yields an empty list, so once the bearer
guard matched a no-selection outcome is impossible: for an Authorization
value that is the prefix followed by only white space, the single candidate
is the empty string, the header is rewritten to exactly "Bearer ", and the
position for the key is advanced (updateIndex with count 1, which also sets
the dirty flag) — the header is not left untouched. -/
theorem ws_only_bearer (s : St) (r : Request)
    (hb : bearerMatch r.auth = true)
    (hw : (r.auth.data.drop 7).all goIsSpace = true)
    (hidx : 0 ≤ s.indexes r.path) (hk : r.apiKey = "") :
    (∀ l, splitComma l ≠ []) ∧
    bearerCandidates r.auth = [""] ∧
    serveHTTP s r = some ({ r with auth := "Bearer " },
      updateIndex s r.path 1, [(r.path, 1)]) := by
  have hcand : bearerCandidates r.auth = [""] := by
    unfold bearerCandidates
    rw [goTrimSpace_all_space _ hw]
    rfl
  refine ⟨splitComma_ne_nil, hcand, ?_⟩
  obtain ⟨sel, hsel, hmem, ha⟩ := authStep_bearer (s.indexes r.path) r s hidx hb
  rw [hcand] at hmem
  have hsel0 : sel = "" := by simpa using hmem
  rw [hsel0] at ha
  rw [hcand] at ha
  have happ : ("Bearer " ++ "" : String) = "Bearer " := by decide
  rw [happ] at ha
  have hkl : ¬ 0 < r.apiKey.length := by rw [hk]; decide
  simp only [serveHTTP, ha, List.length_singleton,
    apiStep_skip (s.indexes r.path) { r with auth := "Bearer " }
      (updateIndex s r.path 1) hkl,
    List.append_nil]

/-- Witness for C10 at the header "Bearer" followed by three spaces. -/
theorem ws_only_bearer_witness :
    (∀ l, splitComma l ≠ []) ∧
    bearerCandidates "Bearer   " = [""] ∧
    serveHTTP freshSt ⟨"/p", "Bearer   ", ""⟩ = some (⟨"/p", "Bearer ", ""⟩,
      updateIndex freshSt "/p" 1, [("/p", 1)]) :=
  ws_only_bearer freshSt ⟨"/p", "Bearer   ", ""⟩ (by decide) (by decide)
    (by decide) rfl

/-! ### Round-trip of the snapshot serialization -/

theorem escChar_length_pos (c : Char) : 1 ≤ (escChar c).length := by
  unfold escChar
  repeat' split
  all_goals simp

theorem length_le_flatten_escChar (l : List Char) :
    l.length ≤ ((l.map escChar).flatten).length := by
  induction l with
  | nil => simp
  | cons c cs ih =>
    have := escChar_length_pos c
    simp only [List.map_cons, List.flatten_cons, List.length_append,
      List.length_cons]
    omega

theorem skipWs_cons_false (c : Char) (cs : List Char) (h : jsonWs c = false) :
    skipWs (c :: cs) = c :: cs := by
  simp [skipWs, List.dropWhile_cons, h]

theorem startsDigit_cons (c : Char) (l : List Char) :
    startsDigit (c :: l) = jsonDigit c := rfl

theorem parseHex_hexDigit (m : Nat) (h : m < 16) :
    parseHex (hexDigit m) = some m := by
  interval_cases m <;> decide

theorem jsonDigit_ofNat (m : Nat) (h : m < 10) :
    jsonDigit (Char.ofNat (48 + m)) = true := by
  interval_cases m <;> decide

theorem toNat_digitChar (m : Nat) (h : m < 10) :
    (Char.ofNat (48 + m)).toNat = 48 + m := by
  interval_cases m <;> decide

theorem digitChar_facts (m : Nat) (h : m < 10) :
    jsonWs (Char.ofNat (48 + m)) = false ∧ Char.ofNat (48 + m) ≠ '-' ∧
      (m ≠ 0 → Char.ofNat (48 + m) ≠ '0') := by
  interval_cases m <;> refine ⟨by decide, by decide, fun h2 => by
    first
    | exact absurd rfl h2
    | decide⟩

theorem encNat_shape (n : Nat) :
    ∃ c cs, encNat n = c :: cs ∧ jsonDigit c = true ∧ jsonWs c = false ∧
      c ≠ '-' ∧ (n ≠ 0 → c ≠ '0') := by
  induction n using Nat.strong_induction_on with
  | _ n ih =>
    rw [encNat]
    split
    · refine ⟨Char.ofNat (48 + n), [], rfl, jsonDigit_ofNat n (by omega), ?_, ?_, ?_⟩
      · exact (digitChar_facts n (by omega)).1
      · exact (digitChar_facts n (by omega)).2.1
      · exact (digitChar_facts n (by omega)).2.2
    · rename_i hlt
      obtain ⟨c, cs, hshape, hdig, hws, hminus, hzero⟩ :=
        ih (n / 10) (Nat.div_lt_self (by omega) (by omega))
      refine ⟨c, cs ++ [Char.ofNat (48 + n % 10)], ?_, hdig, hws, hminus, ?_⟩
      · rw [hshape]; simp
      · intro _
        exact hzero (by omega)

theorem encNat_digits (n : Nat) : ∀ c ∈ encNat n, jsonDigit c = true := by
  induction n using Nat.strong_induction_on with
  | _ n ih =>
    rw [encNat]
    split
    · intro c hc
      simp only [List.mem_singleton] at hc
      subst hc
      exact jsonDigit_ofNat n (by omega)
    · rename_i hlt
      intro c hc
      rw [List.mem_append] at hc
      rcases hc with hc | hc
      · exact ih (n / 10) (Nat.div_lt_self (by omega) (by omega)) c hc
      · simp only [List.mem_singleton] at hc
        subst hc
        exact jsonDigit_ofNat (n % 10) (Nat.mod_lt _ (by omega))

theorem encNat_foldl (n : Nat) : ∀ acc : Nat,
    (encNat n).foldl (fun a c => a * 10 + (c.toNat - 48)) acc =
      acc * 10 ^ (encNat n).length + n := by
  induction n using Nat.strong_induction_on with
  | _ n ih =>
    intro acc
    rw [encNat]
    split
    · rw [List.foldl_cons, List.foldl_nil, toNat_digitChar n (by omega)]
      simp
    · rename_i hlt
      rw [List.foldl_append, List.foldl_cons, List.foldl_nil,
        ih (n / 10) (Nat.div_lt_self (by omega) (by omega)) acc,
        toNat_digitChar (n % 10) (Nat.mod_lt _ (by omega))]
      simp only [List.length_append, List.length_singleton]
      have h2 : (acc * 10 ^ (encNat (n / 10)).length + n / 10) * 10 +
          (48 + n % 10 - 48) =
          acc * (10 ^ (encNat (n / 10)).length * 10) +
            (10 * (n / 10) + n % 10) := by
        have : 48 + n % 10 - 48 = n % 10 := by omega
        rw [this]; ring
      rw [h2, Nat.div_add_mod, pow_succ]

theorem parseDigits_run (ds : List Char) : ∀ (acc : Nat) (rest : List Char),
    (∀ c ∈ ds, jsonDigit c = true) → startsDigit rest = false →
    parseDigits acc (ds ++ rest) =
      (ds.foldl (fun a c => a * 10 + (c.toNat - 48)) acc, rest) := by
  induction ds with
  | nil =>
    intro acc rest _ hr
    cases rest with
    | nil => simp [parseDigits]
    | cons r rs =>
      have : jsonDigit r = false := hr
      simp [parseDigits, this]
  | cons d ds ih =>
    intro acc rest hds hr
    have hd : jsonDigit d = true := hds d (List.mem_cons_self d ds)
    simp only [List.cons_append, parseDigits, hd, if_true, List.foldl_cons]
    exact ih _ rest (fun c hc => hds c (List.mem_cons_of_mem d hc)) hr

theorem parseNatTok_encNat (n : Nat) (rest : List Char)
    (hr : startsDigit rest = false) :
    parseNatTok (encNat n ++ rest) = some (n, rest) := by
  by_cases hn : n = 0
  · subst hn
    have h0 : encNat 0 = ['0'] := by
      rw [encNat]
      simp
    rw [h0]
    simp [parseNatTok]
  · obtain ⟨c, cs, hshape, hdig, -, -, hzero⟩ := encNat_shape n
    have hc0 : c ≠ '0' := hzero hn
    have hall := encNat_digits n
    rw [hshape] at hall
    rw [hshape, List.cons_append]
    simp only [parseNatTok, hc0, if_false, hdig, if_true]
    rw [parseDigits_run cs _ rest
      (fun x hx => hall x (List.mem_cons_of_mem c hx)) hr]
    have hv := encNat_foldl n 0
    rw [hshape, List.foldl_cons] at hv
    simp only [Nat.zero_mul, Nat.zero_add] at hv
    rw [hv]

theorem parseStringBody_enc (l : List Char) (rest : List Char) :
    ∀ fuel, l.length + 1 ≤ fuel →
      parseStringBody fuel ((l.map escChar).flatten ++ '"' :: rest) =
        some (l, rest) := by
  induction l with
  | nil =>
    intro fuel hf
    cases fuel with
    | zero => omega
    | succ f => simp [parseStringBody]
  | cons c cs ih =>
    intro fuel hf
    cases fuel with
    | zero => simp at hf
    | succ f =>
      have ih2 := ih f (by simp only [List.length_cons] at hf; omega)
      simp only [List.map_cons, List.flatten_cons, List.append_assoc]
      by_cases h1 : c = '"'
      · subst h1
        simp [escChar, parseStringBody, escShort, ih2]
      by_cases h2 : c = '\\'
      · subst h2
        simp [escChar, parseStringBody, escShort, ih2]
      by_cases h3 : c = '\n'
      · subst h3
        simp [escChar, parseStringBody, escShort, ih2]
      by_cases h4 : c = '\r'
      · subst h4
        simp [escChar, parseStringBody, escShort, ih2]
      by_cases h5 : c = '\t'
      · subst h5
        simp [escChar, parseStringBody, escShort, ih2]
      by_cases h6 : c.toNat < 0x20 ∨ c = '<' ∨ c = '>' ∨ c = '&'
      · have hlt : c.toNat < 64 := by
          rcases h6 with h | h | h | h
          · omega
          · subst h; decide
          · subst h; decide
          · subst h; decide
        have hx : escChar c =
            ['\\', 'u', '0', '0', hexDigit (c.toNat / 16),
              hexDigit (c.toNat % 16)] := by
          unfold escChar
          rw [if_neg h1, if_neg h2, if_neg h3, if_neg h4, if_neg h5,
            if_pos (by simpa [or_assoc] using h6)]
        rw [hx]
        have hA : c.toNat / 16 * 16 + c.toNat % 16 = c.toNat := by omega
        have hB : 16 * (c.toNat / 16) + c.toNat % 16 = c.toNat := by omega
        have hsur : ¬ (0xD800 ≤ c.toNat ∧ c.toNat ≤ 0xDFFF) := by omega
        simp [parseStringBody,
          parseHex_hexDigit (c.toNat / 16) (by omega),
          parseHex_hexDigit (c.toNat % 16) (by omega),
          show parseHex '0' = some 0 from by decide,
          hA, hB, hsur, Char.ofNat_toNat, ih2]
      by_cases h7 : c.toNat = 0x2028 ∨ c.toNat = 0x2029
      · have hc : c = Char.ofNat c.toNat := (Char.ofNat_toNat c).symm
        rcases h7 with h | h
        · rw [h] at hc
          subst hc
          have hx : escChar (Char.ofNat 0x2028) =
              ['\\', 'u', '2', '0', '2', '8'] := by decide
          rw [hx]
          simp [parseStringBody, ih2,
            show parseHex '2' = some 2 from by decide,
            show parseHex '0' = some 0 from by decide,
            show parseHex '8' = some 8 from by decide]
        · rw [h] at hc
          subst hc
          have hx : escChar (Char.ofNat 0x2029) =
              ['\\', 'u', '2', '0', '2', '9'] := by decide
          rw [hx]
          simp [parseStringBody, ih2,
            show parseHex '2' = some 2 from by decide,
            show parseHex '0' = some 0 from by decide,
            show parseHex '9' = some 9 from by decide]
      · have h6a : ¬ c.toNat < 0x20 := by
          intro hcon
          exact h6 (Or.inl hcon)
        have hx : escChar c = [c] := by
          unfold escChar
          rw [if_neg h1, if_neg h2, if_neg h3, if_neg h4, if_neg h5,
            if_neg (by simpa [or_assoc, and_assoc] using h6),
            if_neg (by simpa [or_assoc, and_assoc] using h7)]
        rw [hx]
        simp [parseStringBody, h1, h2, h6a, ih2]

theorem parseIntTok_encInt (v : Int) (rest : List Char)
    (hr : startsDigit rest = false) :
    parseIntTok (encInt v ++ rest) = some (v, rest) := by
  unfold encInt
  split
  · rename_i hneg
    rw [List.cons_append]
    have h1 : parseIntTok ('-' :: (encNat (-v).toNat ++ rest)) =
        (parseNatTok (encNat (-v).toNat ++ rest)).map
          (fun p => (-(p.1 : Int), p.2)) := by
      simp [parseIntTok]
    rw [h1, parseNatTok_encNat _ rest hr]
    have h2 : (((-v).toNat : Int)) = -v := Int.toNat_of_nonneg (by omega)
    simp [h2]
  · rename_i hpos
    obtain ⟨c, cs, hshape, hdig, -, hminus, -⟩ := encNat_shape v.toNat
    rw [hshape, List.cons_append]
    have h1 : parseIntTok (c :: (cs ++ rest)) =
        (parseNatTok (c :: (cs ++ rest))).map
          (fun p => ((p.1 : Int), p.2)) := by
      simp [parseIntTok, hminus]
    rw [h1, ← List.cons_append, ← hshape, parseNatTok_encNat v.toNat rest hr]
    have h2 : ((v.toNat : Int)) = v := Int.toNat_of_nonneg (by omega)
    simp [h2]

theorem encInt_shape (v : Int) :
    ∃ c cs, encInt v = c :: cs ∧ jsonWs c = false := by
  unfold encInt
  split
  · exact ⟨'-', _, rfl, by decide⟩
  · obtain ⟨c, cs, hs, -, hws, -, -⟩ := encNat_shape v.toNat
    exact ⟨c, cs, hs, hws⟩

theorem parseMember_enc (k : String) (v : Int) (rest : List Char)
    (hr : startsDigit rest = false) :
    parseMember (encString k ++ ':' :: encInt v ++ rest) =
      some ((k, v), rest) := by
  obtain ⟨c0, cs0, hs0, hws0⟩ := encInt_shape v
  have hfuel : k.data.length + 1 ≤
      ((k.data.map escChar).flatten ++ '"' :: (':' :: (encInt v ++ rest))).length
        + 1 := by
    have := length_le_flatten_escChar k.data
    simp only [List.length_append, List.length_cons]
    omega
  have hbody := parseStringBody_enc k.data (':' :: (encInt v ++ rest)) _ hfuel
  have hint : skipWs (encInt v ++ rest) = encInt v ++ rest := by
    rw [hs0, List.cons_append]
    exact skipWs_cons_false c0 _ (hws0)
  have hshape : encString k ++ ':' :: encInt v ++ rest =
      '"' :: ((k.data.map escChar).flatten ++ '"' :: (':' :: (encInt v ++ rest))) := by
    simp [encString]
  rw [hshape]
  unfold parseMember
  rw [skipWs_cons_false '"' _ (by decide)]
  simp only [if_pos rfl, hbody]
  rw [skipWs_cons_false ':' _ (by decide)]
  simp only [if_pos rfl, hint, parseIntTok_encInt v rest hr]
  simp

theorem parseMembersAux_enc (t : List (String × Int)) (ht : t ≠ []) :
    ∀ fuel rest2, t.length ≤ fuel →
      parseMembersAux fuel (encMembers t ++ '\x7d' :: rest2) =
        some (t, '\x7d' :: rest2) := by
  induction t with
  | nil => exact absurd rfl ht
  | cons kv t' ih =>
    obtain ⟨k, v⟩ := kv
    intro fuel rest2 hf
    cases fuel with
    | zero => simp at hf
    | succ f =>
      cases t' with
      | nil =>
        have hshape : encMembers [(k, v)] ++ '\x7d' :: rest2 =
            encString k ++ ':' :: encInt v ++ ('\x7d' :: rest2) := by
          simp [encMembers]
        rw [hshape]
        simp only [parseMembersAux,
          parseMember_enc k v ('\x7d' :: rest2) (by rw [startsDigit_cons]; decide),
          skipWs_cons_false '\x7d' rest2 (by decide),
          if_neg (by decide : ¬ ('\x7d' : Char) = ',')]
      | cons kv2 t'' =>
        have hshape : encMembers ((k, v) :: kv2 :: t'') ++ '\x7d' :: rest2 =
            encString k ++ ':' :: encInt v ++
              (',' :: (encMembers (kv2 :: t'') ++ '\x7d' :: rest2)) := by
          simp [encMembers]
        rw [hshape]
        simp only [parseMembersAux,
          parseMember_enc k v
            (',' :: (encMembers (kv2 :: t'') ++ '\x7d' :: rest2))
            (by rw [startsDigit_cons]; decide),
          skipWs_cons_false ',' (encMembers (kv2 :: t'') ++ '\x7d' :: rest2)
            (by decide),
          if_pos rfl,
          ih (by simp) f rest2 (by simp only [List.length_cons] at hf ⊢; omega)]
        simp

theorem encString_length_pos (s : String) : 1 ≤ (encString s).length := by
  simp [encString]

theorem encMembers_length_ge (t : List (String × Int)) :
    t.length ≤ (encMembers t).length := by
  induction t with
  | nil => simp [encMembers]
  | cons kv t' ih =>
    obtain ⟨k, v⟩ := kv
    have h1 := encString_length_pos k
    cases t' with
    | nil =>
      simp only [encMembers, List.length_append, List.length_cons,
        List.length_nil]
      omega
    | cons kv2 t'' =>
      simp only [encMembers, List.length_append, List.length_cons] at *
      omega

/-- C4: round-trip fidelity of persistence: serializing an index table as
the flush path does (json.Marshal of the map) and deserializing the result
as the load path does (json.Unmarshal) yields the same table: the same keys
mapped to the same positions. Proved for every table, the non-empty ones of
the claim included. -/
theorem marshal_roundtrip (t : List (String × Int)) :
    unmarshalTable (marshalTable t) = some t := by
  unfold marshalTable unmarshalTable
  rw [skipWs_cons_false '\x7b' _ (by decide)]
  simp only [if_pos rfl]
  cases t with
  | nil =>
    simp only [encMembers, List.nil_append]
    rw [skipWs_cons_false '\x7d' _ (by decide)]
    simp [skipWs]
  | cons kv t' =>
    obtain ⟨k, v⟩ := kv
    obtain ⟨tail, htail⟩ : ∃ tail, encMembers ((k, v) :: t') = '"' :: tail := by
      cases t' with
      | nil =>
        exact ⟨(k.data.map escChar).flatten ++ ['"'] ++ ':' :: encInt v,
          by simp [encMembers, encString]⟩
      | cons kv2 t'' =>
        exact ⟨(k.data.map escChar).flatten ++ ['"'] ++ ':' :: encInt v ++
          ',' :: encMembers (kv2 :: t''),
          by simp [encMembers, encString]⟩
    have hX : encMembers ((k, v) :: t') ++ ['\x7d'] =
        '"' :: (tail ++ ['\x7d']) := by
      rw [htail]; simp
    rw [hX]
    simp only [skipWs_cons_false '"' (tail ++ ['\x7d']) (by decide),
      if_neg (by decide : ¬ ('"' : Char) = '\x7d')]
    have hf : ((k, v) :: t').length ≤ ('"' :: (tail ++ ['\x7d'])).length + 1 := by
      have h1 := encMembers_length_ge ((k, v) :: t')
      rw [htail] at h1
      simp only [List.length_cons, List.length_append] at *
      omega
    have hrun := parseMembersAux_enc ((k, v) :: t') (by simp)
      (('"' :: (tail ++ ['\x7d'])).length + 1) [] hf
    rw [show encMembers ((k, v) :: t') ++ '\x7d' :: ([] : List Char) =
        '"' :: (tail ++ ['\x7d']) from by rw [htail]; simp] at hrun
    rw [hrun]
    simp [skipWs]

/-! ### Claim theorems about the durability manager -/

/-- C2: the flush protocol for the dirty flag: a clean state performs no
serialization and no write and is returned unchanged; a dirty state whose
write succeeds ends clean with the marshalled table persisted; a dirty
state whose write fails stays dirty (so the next tick retries), with the
table and file intact, and a subsequent successful flush attempt ends clean
and persists the table. -/
theorem flush_dirty_protocol (s : PersistSt) (ok : Bool) :
    (s.changed = false → saveIndexes ok s = (s, false)) ∧
    (s.changed = true → ok = true →
      (saveIndexes ok s).1.changed = false ∧
      (saveIndexes ok s).1.file = FileState.content (marshalTable s.table) ∧
      (saveIndexes ok s).1.table = s.table ∧
      (saveIndexes ok s).2 = true) ∧
    (s.changed = true → ok = false →
      (saveIndexes ok s).1.changed = true ∧
      (saveIndexes ok s).1.table = s.table ∧
      (saveIndexes ok s).1.file = s.file ∧
      (saveIndexes ok s).2 = true ∧
      (saveIndexes true (saveIndexes ok s).1).1.changed = false ∧
      (saveIndexes true (saveIndexes ok s).1).1.file =
        FileState.content (marshalTable s.table)) := by
  refine ⟨fun hc => ?_, fun hc hok => ?_, fun hc hok => ?_⟩
  · simp [saveIndexes, hc]
  · subst hok
    simp [saveIndexes, hc]
  · subst hok
    simp [saveIndexes, hc]

/-- Witness for C2: a concrete dirty state with a failing then a succeeding
write, and a clean state whose flush is a no-op. -/
theorem flush_dirty_protocol_witness :
    (saveIndexes false (PersistSt.mk [("k", 2)] true FileState.missing)).1.changed
        = true ∧
    (saveIndexes true (saveIndexes false
        (PersistSt.mk [("k", 2)] true FileState.missing)).1).1.changed = false ∧
    (saveIndexes true (saveIndexes false
        (PersistSt.mk [("k", 2)] true FileState.missing)).1).1.file =
      FileState.content (marshalTable [("k", 2)]) ∧
    saveIndexes true (PersistSt.mk [("k", 2)] false FileState.missing) =
      (PersistSt.mk [("k", 2)] false FileState.missing, false) := by
  have h1 := flush_dirty_protocol (PersistSt.mk [("k", 2)] true FileState.missing)
    false
  have h2 := flush_dirty_protocol (PersistSt.mk [("k", 2)] false FileState.missing)
    true
  obtain ⟨-, -, h3⟩ := h1
  obtain ⟨h4, -, -⟩ := h2
  obtain ⟨ha, -, -, -, hb, hc⟩ := h3 rfl rfl
  exact ⟨ha, hb, hc, h4 rfl⟩

/-- C3: loading never fails startup: a missing snapshot yields the empty
table silently (no error reported); a snapshot that exists but does not
parse is reported and yields the empty table; a parsable snapshot yields
its contents. The embedding is total, so no input aborts. -/
theorem load_never_fails (f : FileState) :
    (f = FileState.missing → loadIndexes f = ([], false)) ∧
    (∀ data, f = FileState.content data → unmarshalTable data = none →
      loadIndexes f = ([], true)) ∧
    (∀ data t, f = FileState.content data → unmarshalTable data = some t →
      loadIndexes f = (t, false)) := by
  refine ⟨fun h => ?_, fun data h hp => ?_, fun data t h hp => ?_⟩
  · subst h
    simp [loadIndexes]
  · subst h
    simp [loadIndexes, hp]
  · subst h
    simp [loadIndexes, hp]

/-- Witness for C3: a corrupt one-character snapshot loads as the empty
table with the condition reported; a missing file loads silently. -/
theorem load_never_fails_witness :
    loadIndexes (FileState.content ['x']) = ([], true) ∧
    loadIndexes FileState.missing = ([], false) :=
  ⟨(load_never_fails (FileState.content ['x'])).2.1 ['x'] rfl (by decide),
   (load_never_fails FileState.missing).1 rfl⟩

example : bearerCandidates "Bearer key1, key2" = ["key1", " key2"] := by decide

example : (serveHTTP freshSt ⟨"/p", "Bearer key1,key2", ""⟩).map
    (fun out => out.1.auth) = some "Bearer key1" := by decide

example : (serveHTTP freshSt ⟨"/p", "Bearer key1,key2", ""⟩).map
    (fun out => out.2.1.indexes "/p") = some 1 := by decide

end AuthModifier
